import Mathlib

/-
Shallow embedding of the event-log analytics pipeline implemented in
"src/Python Script/Processor.py" (polars version).

Modelling conventions:
* A polars frame of events is a Lean list of `Event` records; timestamps are
  rationals (an instant on a linear time axis), so timestamp differences and
  the derived means and percentages are exact rationals rather than floats.
* `process_data` sorts by (CaseID, Timestamp), adds the window columns
  Event_Rank / Max_Rank / Seconds_From_Start, and only then applies the
  optional date filters; the two branches (variants, edges) both read the
  resulting in-memory table `df_base`.  Window functions block predicate
  pushdown in polars, so the filter semantically runs after the window
  columns are computed, exactly as written.
* Group orders that polars leaves unspecified (group_by without
  maintain_order) are modelled by a deterministic representative:
  `List.dedup` of the key column.  Ties in the descending sorts are resolved
  stably, one deterministic representative of the unspecified tie order.
* The rendering of a rational number as text (float formatting) is abstracted
  by `ratStr`; the claims never depend on the digits, only on emptiness and
  distinguished tokens.
-/

structure Event where
  caseId : Nat
  activity : String
  timestamp : Rat
  deriving DecidableEq

structure IndexedEvent where
  caseId : Nat
  activity : String
  timestamp : Rat
  eventRank : Nat
  maxRank : Nat
  secondsFromStart : Rat
  deriving DecidableEq

/-- Stable sort of the events of one case by timestamp: models the order
polars produces for a case partition after sort(CaseID, Timestamp), with the
rank column `rank(ordinal)` reading off 1-based positions. -/
def sortEvents (l : List Event) : List Event :=
  List.insertionSort (fun a b => a.timestamp ≤ b.timestamp) l

/-- Assign Event_Rank = i (1-based running counter), Max_Rank = n and
Seconds_From_Start = timestamp - t0 to a case partition, in order. -/
def buildIndexed (n : Nat) (t0 : Rat) : Nat → List Event → List IndexedEvent
  | _, [] => []
  | i, e :: rest =>
    { caseId := e.caseId, activity := e.activity, timestamp := e.timestamp,
      eventRank := i, maxRank := n,
      secondsFromStart := e.timestamp - t0 } :: buildIndexed n t0 (i + 1) rest

/-- Index one case partition: `Event_Rank = Timestamp.rank(ordinal) over CaseID`,
`Max_Rank = Event_Rank.max() over CaseID`,
`Seconds_From_Start = Timestamp - Timestamp.min() over CaseID`. -/
def indexCase (evs : List Event) : List IndexedEvent :=
  let s := sortEvents evs
  buildIndexed s.length (match s with | [] => 0 | e :: _ => e.timestamp) 1 s

/-- The distinct case ids, in ascending order (the frame is sorted by CaseID
first). -/
def caseIdsOf (log : List Event) : List Nat :=
  List.insertionSort (fun a b => a ≤ b) (log.map Event.caseId).dedup

/-- The indexed table: sort by (CaseID, Timestamp), then the three window
columns, per case partition. -/
def indexLog (log : List Event) : List IndexedEvent :=
  (caseIdsOf log).flatMap (fun c => indexCase (log.filter (fun e => e.caseId = c)))

/-- The date predicate: start_date ≤ t and t ≤ end_date, each bound only when
given (inclusive bounds, as in the two `filter` calls of `process_data`). -/
def inRange (sd ed : Option Rat) (t : Rat) : Bool :=
  (match sd with | none => true | some s => decide (s ≤ t)) &&
  (match ed with | none => true | some e => decide (t ≤ e))

/-- `df_base`: the indexed table after the date filters.  In the source the
filters are applied to the lazy frame AFTER the window columns are added. -/
def dfBase (log : List Event) (sd ed : Option Rat) : List IndexedEvent :=
  (indexLog log).filter (fun r => inRange sd ed r.timestamp)

/-- Modelled from the spec (for claim C1 only): the table that would result if
the date bounds were applied BEFORE indexing, i.e. if ranks and elapsed times
were computed over the in-range events only.  This is the reading the spec
describes; it is compared against `dfBase`, which follows the source. -/
def specDateFirstTable (log : List Event) (sd ed : Option Rat) : List IndexedEvent :=
  indexLog (log.filter (fun e => inRange sd ed e.timestamp))

/-! ### Variants branch (`get_variants_logic`) -/

structure CaseRec where
  path : List String
  times : List Rat
  isTrueStart : Nat
  isTrueEnd : Nat
  deriving DecidableEq

/-- Per-case aggregation row of `cases_agg`: the activity list and the
Seconds_From_Start list in row order, `Is_True_Start = (first rank == 1)` and
`Is_True_End = (last rank == first Max_Rank)`, cast to 0/1. -/
def caseRec (rows : List IndexedEvent) : CaseRec where
  path := rows.map (·.activity)
  times := rows.map (·.secondsFromStart)
  isTrueStart :=
    match rows.head? with
    | some r => if r.eventRank = 1 then 1 else 0
    | none => 0
  isTrueEnd :=
    match rows.getLast?, rows.head? with
    | some rl, some rf => if rl.eventRank = rf.maxRank then 1 else 0
    | _, _ => 0

/-- `cases_agg`: group `df_base` by CaseID (a group exists for every case id
still present in the table). -/
def caseRecs (rows : List IndexedEvent) : List CaseRec :=
  ((rows.map (·.caseId)).dedup).map
    (fun c => caseRec (rows.filter (fun r => r.caseId = c)))

structure VariantAgg where
  path : List String
  freq : Nat
  timesLists : List (List Rat)
  tsc : Nat
  tec : Nat
  deriving DecidableEq

/-- `variants_agg`: group the case rows by Variant_Path; Frequency = group
size, Times_List collected, True_Start_Count / True_End_Count summed. -/
def variantAggs (cs : List CaseRec) : List VariantAgg :=
  ((cs.map (·.path)).dedup).map (fun p =>
    let grp := cs.filter (fun r => r.path = p)
    { path := p, freq := grp.length, timesLists := grp.map (·.times),
      tsc := (grp.map (·.isTrueStart)).sum,
      tec := (grp.map (·.isTrueEnd)).sum })

/-- The `min_cases` floor on variant Frequency (when given). -/
def filterMin (mc : Option Int) (vs : List VariantAgg) : List VariantAgg :=
  match mc with
  | none => vs
  | some m => vs.filter (fun v => m ≤ (v.freq : Int))

/-- `total_cases = variants_df[Frequency].sum()`, computed AFTER the
min_cases filter. -/
def totalFreq (vs : List VariantAgg) : Nat := (vs.map (·.freq)).sum

structure VariantRow where
  path : List String
  freq : Nat
  timesLists : List (List Rat)
  tsc : Nat
  tec : Nat
  percentage : Rat
  deriving DecidableEq

/-- Attach `Percentage = Frequency / total_cases * 100`. -/
def withPercentage (vs : List VariantAgg) : List VariantRow :=
  vs.map (fun v =>
    { path := v.path, freq := v.freq, timesLists := v.timesLists,
      tsc := v.tsc, tec := v.tec,
      percentage := (v.freq : Rat) / (totalFreq vs : Rat) * 100 })

/-- `sort(Frequency, descending=True)` (stable representative of the
unspecified tie order). -/
def sortByFreqDesc (vs : List VariantRow) : List VariantRow :=
  List.insertionSort (fun a b => b.freq ≤ a.freq) vs

/-- `cum_coverage = Percentage.cum_sum() / 100`, attached to each row. -/
def withCum : List VariantRow → Rat → List (VariantRow × Rat)
  | [], _ => []
  | v :: rest, acc =>
    (v, acc + v.percentage / 100) :: withCum rest (acc + v.percentage / 100)

/-- The Pareto cut of the source: find the first row with
`cum_coverage >= 0.95`, keep the rows with `cum_coverage <=` that value;
if no row reaches 0.95, keep everything. -/
def paretoSelect (l : List VariantRow) (acc : Rat) : List VariantRow :=
  match (withCum l acc).find? (fun p => decide ((95 : Rat) / 100 ≤ p.2)) with
  | some p => ((withCum l acc).filter (fun q => decide (q.2 ≤ p.2))).map Prod.fst
  | none => l

def paretoCut (l : List VariantRow) : List VariantRow := paretoSelect l 0

/-- Floor of a rational (den is positive, so flooring division is the floor). -/
def ratFloor (x : Rat) : Int := Int.fdiv x.num (x.den : Int)

/-- Round half to even (the rounding of Python / numpy `round`). -/
def roundHalfEven (x : Rat) : Int :=
  let f := ratFloor x
  let r := x - (f : Rat)
  if r < 1 / 2 then f
  else if 1 / 2 < r then f + 1
  else if f % 2 = 0 then f else f + 1

/-- `round(x, 2)`. -/
def round2 (x : Rat) : Rat := ((roundHalfEven (x * 100) : Int) : Rat) / 100

/-- Column i of a list of time vectors (all vectors of a variant group share
one length, so the default is never taken). -/
def colVals (ll : List (List Rat)) (i : Nat) : List Rat :=
  ll.map (fun l => l.getD i 0)

def meanList (l : List Rat) : Rat := l.sum / (l.length : Rat)

/-- `calc_timings`: per step position, aggregate the column across the cases
of the variant (numpy axis=0) and round to 2 decimals. -/
def calcTimings (ll : List (List Rat)) (f : List Rat → Rat) : List Rat :=
  match ll with
  | [] => []
  | l0 :: _ => (List.range l0.length).map (fun i => round2 (f (colVals ll i)))

structure VariantOut where
  path : List String
  freq : Nat
  avgTimings : List Rat
  totalTimings : List Rat
  tsc : Nat
  tec : Nat
  percentage : Rat
  deriving DecidableEq

/-- Attach Avg_Timings / Total_Timings and drop Times_List. -/
def finishVariant (v : VariantRow) : VariantOut where
  path := v.path
  freq := v.freq
  avgTimings := calcTimings v.timesLists meanList
  totalTimings := calcTimings v.timesLists List.sum
  tsc := v.tsc
  tec := v.tec
  percentage := v.percentage

/-- `counts_dict[k] = counts_dict.get(k, 0) + v` on an insertion-ordered
association list (a Python dict). -/
def bump (m : List (String × Nat)) (k : String) (v : Nat) : List (String × Nat) :=
  match m with
  | [] => [(k, v)]
  | (k0, v0) :: rest =>
    if k0 = k then (k0, v0 + v) :: rest else (k0, v0) :: bump rest k v

/-- Accumulate start_counts / end_counts over the Pareto variants, in order:
for a non-empty path, add True_Start_Count under the first activity when
positive, and True_End_Count under the last activity when positive. -/
def accumNodes (vs : List VariantRow) : List (String × Nat) × List (String × Nat) :=
  vs.foldl (fun acc v =>
    match v.path with
    | [] => acc
    | h :: t =>
      let acc1 := if 0 < v.tsc then bump acc.1 h v.tsc else acc.1
      let acc2 := if 0 < v.tec then bump acc.2 ((h :: t).getLastD h) v.tec else acc.2
      (acc1, acc2)) ([], [])

/-- `sorted(counts.items(), key=count, reverse=True)` (Python sorted is
stable). -/
def sortCountsDesc (m : List (String × Nat)) : List (String × Nat) :=
  List.insertionSort (fun a b => b.2 ≤ a.2) m

/-- The selection loop of `get_top_nodes`: append each node, stop as soon as
`current_sum / total >= 0.90` (inclusive of the crossing node). -/
def topLoop (total : Rat) : List (String × Nat) → Nat → List String
  | [], _ => []
  | (nm, c) :: rest, acc =>
    let acc2 := acc + c
    if (9 : Rat) / 10 ≤ (acc2 : Rat) / total then [nm]
    else nm :: topLoop total rest acc2

/-- `get_top_nodes` of the source (the final fallback branch is dead code but
kept faithfully). -/
def getTopNodes (counts : List (String × Nat)) : List String :=
  if counts.isEmpty then []
  else
    let sortedNodes := sortCountsDesc counts
    let total : Nat := (counts.map (·.2)).sum
    if total = 0 then []
    else
      let selected := topLoop (total : Rat) sortedNodes 0
      if selected.isEmpty && !sortedNodes.isEmpty then [(sortedNodes.headD ("", 0)).1]
      else selected

/-- The variant set that `get_variants_logic` works with after the min_cases
filter (pre Pareto): grouping of `df_base`, then the Frequency floor. -/
def filteredVariants (log : List Event) (sd ed : Option Rat) (mc : Option Int) :
    List VariantAgg :=
  filterMin mc (variantAggs (caseRecs (dfBase log sd ed)))

/-- `get_variants_logic`: returns (pareto variants, start nodes, end nodes);
an empty variant set short-circuits to three empty lists. -/
def getVariantsLogic (rows : List IndexedEvent) (mc : Option Int) :
    List VariantOut × List String × List String :=
  let vs := filterMin mc (variantAggs (caseRecs rows))
  if vs.isEmpty then ([], [], [])
  else
    let sorted := sortByFreqDesc (withPercentage vs)
    let pareto := paretoCut sorted
    let nodes := accumNodes pareto
    (pareto.map finishVariant, getTopNodes nodes.1, getTopNodes nodes.2)

/-! ### Edges branch -/

structure Transition where
  srcCase : Nat
  tgtCase : Nat
  source : String
  target : String
  duration : Rat
  deriving DecidableEq

/-- Pair a row with its shifted successor: Target_Activity / Target_Timestamp
come from the next row of the same case partition. -/
def mkTransition (a b : IndexedEvent) : Transition where
  srcCase := a.caseId
  tgtCase := b.caseId
  source := a.activity
  target := b.activity
  duration := b.timestamp - a.timestamp

/-- `shift(-1).over(CaseID)` followed by dropping the null row: within one
case partition each row is paired with its immediate successor, the last row
of the partition produces nothing. -/
def transitionsOf : List IndexedEvent → List Transition
  | [] => []
  | [_] => []
  | a :: b :: rest => mkTransition a b :: transitionsOf (b :: rest)

/-- All transitions of `df_base`, per case partition. -/
def allTransitions (rows : List IndexedEvent) : List Transition :=
  ((rows.map (·.caseId)).dedup).flatMap
    (fun c => transitionsOf (rows.filter (fun r => r.caseId = c)))

structure EdgeMetric where
  source : String
  target : String
  caseCount : Nat
  totalDuration : Rat
  meanDuration : Rat
  deriving DecidableEq

/-- `group_by(Activity, Target_Activity)` with Case_Count = len,
Total_Duration_Seconds = sum, Mean_Duration_Seconds = mean. -/
def edgeMetrics (ts : List Transition) : List EdgeMetric :=
  ((ts.map (fun t => (t.source, t.target))).dedup).map (fun st =>
    let grp := ts.filter (fun t => t.source = st.1 ∧ t.target = st.2)
    { source := st.1, target := st.2, caseCount := grp.length,
      totalDuration := (grp.map (·.duration)).sum,
      meanDuration := (grp.map (·.duration)).sum / (grp.length : Rat) })

inductive WeightMetric
  | cases
  | meanTime
  deriving DecidableEq

inductive TimeUnit
  | s
  | m
  | h
  | d
  | w
  deriving DecidableEq

structure Options where
  startDate : Option Rat := none
  endDate : Option Rat := none
  minCases : Option Int := none
  maxCases : Option Int := none
  minMeanTime : Option Int := none
  maxMeanTime : Option Int := none
  weightMetric : WeightMetric := .cases
  timeUnit : TimeUnit := .d
  deriving DecidableEq

def filtMinCases (mc : Option Int) (es : List EdgeMetric) : List EdgeMetric :=
  match mc with
  | none => es
  | some m => es.filter (fun e => m ≤ (e.caseCount : Int))

def filtMaxCases (mc : Option Int) (es : List EdgeMetric) : List EdgeMetric :=
  match mc with
  | none => es
  | some m => es.filter (fun e => (e.caseCount : Int) ≤ m)

def filtMinMean (mm : Option Int) (es : List EdgeMetric) : List EdgeMetric :=
  match mm with
  | none => es
  | some m => es.filter (fun e => (m : Rat) ≤ e.meanDuration)

def filtMaxMean (mm : Option Int) (es : List EdgeMetric) : List EdgeMetric :=
  match mm with
  | none => es
  | some m => es.filter (fun e => e.meanDuration ≤ (m : Rat))

/-- The four inclusive numeric edge filters, applied in source order. -/
def applyEdgeFilters (o : Options) (es : List EdgeMetric) : List EdgeMetric :=
  filtMaxMean o.maxMeanTime
    (filtMinMean o.minMeanTime
      (filtMaxCases o.maxCases
        (filtMinCases o.minCases es)))

def unitDivisor : TimeUnit → Rat
  | .s => 1
  | .m => 60
  | .h => 3600
  | .d => 86400
  | .w => 604800

def unitLabel : TimeUnit → String
  | .s => "ثانیه"
  | .m => "دقیقه"
  | .h => "ساعت"
  | .d => "روز"
  | .w => "هفته"

/-- The value domain of a polars float column entry: a number, null, or NaN.
NaN is a number value in polars: `is_null` is false on it and every
comparison with it is false. -/
inductive FloatVal
  | null
  | nan
  | num (q : Rat)
  deriving DecidableEq

/-- Abstracted numeric rendering of a rational (float formatting is cosmetic;
no claim depends on the digits). -/
def ratStr (q : Rat) : String := toString q

/-- `format_seconds_to_days_expr`: when(col == 0) then "0s",
when(col.is_null()) then "", otherwise format(col / 86400 rounded to 2) with
the day label.  A NaN input fails both tests and lands in the otherwise
branch, where it renders as NaN text. -/
def formatSecondsToDays : FloatVal → String
  | .num q => if q = 0 then "0s" else ratStr (round2 (q / 86400)) ++ " روز "
  | .null => ""
  | .nan => "NaN روز "

structure Edge where
  source : String
  target : String
  meanDuration : Rat
  tooltipTotal : String
  tooltipMean : String
  weightValue : Rat
  edgeLabel : String
  deriving DecidableEq

/-- Tooltips via the duration formatter, then Weight_Value / Edge_Label by
the chosen metric. -/
def mkEdge (o : Options) (e : EdgeMetric) : Edge :=
  let tt := formatSecondsToDays (.num e.totalDuration)
  let tm := formatSecondsToDays (.num e.meanDuration)
  match o.weightMetric with
  | .meanTime =>
    let dv := unitDivisor o.timeUnit
    { source := e.source, target := e.target, meanDuration := e.meanDuration,
      tooltipTotal := tt, tooltipMean := tm,
      weightValue := e.meanDuration / dv,
      edgeLabel := ratStr (round2 (e.meanDuration / dv)) ++ " " ++ unitLabel o.timeUnit }
  | .cases =>
    { source := e.source, target := e.target, meanDuration := e.meanDuration,
      tooltipTotal := tt, tooltipMean := tm,
      weightValue := (e.caseCount : Rat),
      edgeLabel := toString e.caseCount }

structure Output where
  graphData : List Edge
  variants : List VariantOut
  startActivities : List String
  endActivities : List String
  deriving DecidableEq

/-- `process_data` minus the file / CLI boundary: one result record from the
event log and the options. -/
def processData (log : List Event) (o : Options) : Output :=
  let base := dfBase log o.startDate o.endDate
  let v := getVariantsLogic base o.minCases
  let es := applyEdgeFilters o (edgeMetrics (allTransitions base))
  { graphData := es.map (mkEdge o), variants := v.1,
    startActivities := v.2.1, endActivities := v.2.2 }

/-! ### Generic coverage-prefix machinery -/

/-- The common shape of the two coverage cutoffs: walk the list accumulating
weights, keep every element, stop (inclusively) at the first element whose
running total reaches the threshold. -/
def takeCover (w : α → Rat) (thr : Rat) : List α → Rat → List α
  | [], _ => []
  | x :: rest, acc =>
    let acc2 := acc + w x
    if thr ≤ acc2 then [x] else x :: takeCover w thr rest acc2

def sumW (w : α → Rat) (l : List α) : Rat := (l.map w).sum

/-! ### Lemmas about the generic coverage prefix -/

theorem sumW_nil (w : α → Rat) : sumW w [] = 0 := rfl

theorem sumW_cons (w : α → Rat) (x : α) (l : List α) :
    sumW w (x :: l) = w x + sumW w l := by
  simp [sumW]

/-- Behaviour of `takeCover`: starting strictly below the threshold, it
returns a prefix, non-empty when the input is, every proper sub-prefix stays
below the threshold, and the whole prefix reaches the threshold whenever the
full list does. -/
theorem takeCover_spec (w : α → Rat) (thr : Rat) (l : List α) :
    ∀ acc : Rat, acc < thr →
      ∃ k, takeCover w thr l acc = l.take k ∧ (l ≠ [] → 0 < k) ∧
        (∀ j, j < k → acc + sumW w (l.take j) < thr) ∧
        (thr ≤ acc + sumW w l → thr ≤ acc + sumW w (l.take k)) := by
  induction l with
  | nil =>
    intro acc hacc
    refine ⟨0, rfl, by simp, ?_, ?_⟩
    · intro j hj
      exact absurd hj (Nat.not_lt_zero j)
    · intro h
      simpa [sumW] using h
  | cons x rest ih =>
    intro acc hacc
    by_cases hcr : thr ≤ acc + w x
    · refine ⟨1, ?_, ?_, ?_, ?_⟩
      · simp [takeCover, hcr]
      · intro _
        exact Nat.zero_lt_one
      · intro j hj
        have hj0 : j = 0 := by omega
        subst hj0
        simpa [sumW] using hacc
      · intro _
        simpa [sumW] using hcr
    · have hlt : acc + w x < thr := lt_of_not_le hcr
      obtain ⟨k, hk1, _, hk3, hk4⟩ := ih (acc + w x) hlt
      refine ⟨k + 1, ?_, ?_, ?_, ?_⟩
      · simp [takeCover, hcr, hk1]
      · intro _
        exact Nat.succ_pos k
      · intro j hj
        cases j with
        | zero => simpa [sumW] using hacc
        | succ j0 =>
          have hs := hk3 j0 (by omega)
          have : acc + sumW w ((x :: rest).take (j0 + 1))
              = acc + w x + sumW w (rest.take j0) := by
            simp [sumW_cons, add_assoc]
          rw [this]
          exact hs
      · intro h
        have h2 : thr ≤ acc + w x + sumW w rest := by
          rw [sumW_cons] at h
          linarith
        have := hk4 h2
        have heq : acc + sumW w ((x :: rest).take (k + 1))
            = acc + w x + sumW w (rest.take k) := by
          simp [sumW_cons, add_assoc]
        rw [heq]
        exact this

/-- Every cumulative value produced by `withCum` lies strictly above the
starting accumulator, as long as all percentages are positive. -/
theorem withCum_gt (l : List VariantRow) (hpos : ∀ v ∈ l, 0 < v.percentage) :
    ∀ acc : Rat, ∀ x ∈ withCum l acc, acc < x.2 := by
  induction l with
  | nil =>
    intro acc x hx
    simp [withCum] at hx
  | cons v rest ih =>
    intro acc x hx
    have hpv : 0 < v.percentage := hpos v (by simp)
    have hstep : acc < acc + v.percentage / 100 := by
      have : 0 < v.percentage / 100 := by positivity
      linarith
    rcases (by simpa [withCum] using hx :
        x = (v, acc + v.percentage / 100) ∨ x ∈ withCum rest (acc + v.percentage / 100)) with h | h
    · rw [h]
      exact hstep
    · have := ih (fun u hu => hpos u (by simp [hu])) (acc + v.percentage / 100) x h
      linarith

/-- On a list whose head already crosses 0.95: the source selection keeps
exactly the head. -/
theorem paretoSelect_cons_cross (v : VariantRow) (rest : List VariantRow)
    (acc : Rat) (hrest : ∀ u ∈ rest, 0 < u.percentage)
    (hcr : (95 : Rat) / 100 ≤ acc + v.percentage / 100) :
    paretoSelect (v :: rest) acc = [v] := by
  have hcum : withCum (v :: rest) acc
      = (v, acc + v.percentage / 100) :: withCum rest (acc + v.percentage / 100) := rfl
  have hfind : (withCum (v :: rest) acc).find?
      (fun p => decide ((95 : Rat) / 100 ≤ p.2))
      = some (v, acc + v.percentage / 100) := by
    rw [hcum]
    exact List.find?_cons_of_pos _ (by simpa using hcr)
  have htail : (withCum rest (acc + v.percentage / 100)).filter
      (fun q => decide (q.2 ≤ acc + v.percentage / 100)) = [] := by
    apply List.filter_eq_nil_iff.mpr
    intro q hq
    have := withCum_gt rest hrest (acc + v.percentage / 100) q hq
    simp [not_le.mpr this]
  unfold paretoSelect
  rw [hfind, hcum]
  simp [List.filter_cons, htail]

/-- On a list whose head does not cross 0.95: the source selection keeps the
head and recurses. -/
theorem paretoSelect_cons_nocross (v : VariantRow) (rest : List VariantRow)
    (acc : Rat)
    (hcr : ¬ (95 : Rat) / 100 ≤ acc + v.percentage / 100) :
    paretoSelect (v :: rest) acc
      = v :: paretoSelect rest (acc + v.percentage / 100) := by
  have hhead : (decide ((95 : Rat) / 100 ≤ acc + v.percentage / 100)) = false := by
    simp [hcr]
  cases hf : (withCum rest (acc + v.percentage / 100)).find?
      (fun p => decide ((95 : Rat) / 100 ≤ p.2)) with
  | none =>
    simp [paretoSelect, withCum, List.find?_cons, hhead, hf]
  | some p =>
    have hp : (95 : Rat) / 100 ≤ p.2 := by
      have := List.find?_some hf
      simpa using this
    have hple : acc + v.percentage / 100 ≤ p.2 :=
      le_trans (le_of_not_le hcr) hp
    simp [paretoSelect, withCum, List.find?_cons, hhead, hf,
      List.filter_cons_of_pos, hple]

/-- The Pareto selection of the source equals the inclusive coverage prefix,
whenever all percentages are positive. -/
theorem paretoSelect_eq (l : List VariantRow) :
    ∀ acc : Rat, (∀ v ∈ l, 0 < v.percentage) →
      paretoSelect l acc
        = takeCover (fun v => v.percentage / 100) ((95 : Rat) / 100) l acc := by
  induction l with
  | nil => intro acc _; rfl
  | cons v rest ih =>
    intro acc hpos
    have hrest : ∀ u ∈ rest, 0 < u.percentage := fun u hu => hpos u (by simp [hu])
    by_cases hcr : (95 : Rat) / 100 ≤ acc + v.percentage / 100
    · rw [paretoSelect_cons_cross v rest acc hrest hcr]
      simp [takeCover, hcr]
    · rw [paretoSelect_cons_nocross v rest acc hcr]
      rw [ih (acc + v.percentage / 100) hrest]
      simp [takeCover, hcr]

/-- The selection loop of `get_top_nodes` equals the inclusive coverage
prefix, with weights count/total. -/
theorem topLoop_eq (total : Rat) (l : List (String × Nat)) :
    ∀ accN : Nat,
      topLoop total l accN
        = (takeCover (fun p : String × Nat => (p.2 : Rat) / total)
            ((9 : Rat) / 10) l ((accN : Rat) / total)).map Prod.fst := by
  induction l with
  | nil => intro accN; rfl
  | cons p rest ih =>
    intro accN
    obtain ⟨nm, c⟩ := p
    have hcond : ((9 : Rat) / 10 ≤ ((accN + c : Nat) : Rat) / total)
        ↔ ((9 : Rat) / 10 ≤ (accN : Rat) / total + (c : Rat) / total) := by
      rw [Nat.cast_add, add_div]
    by_cases h : (9 : Rat) / 10 ≤ ((accN + c : Nat) : Rat) / total
    · rw [show topLoop total ((nm, c) :: rest) accN
          = if (9 : Rat) / 10 ≤ ((accN + c : Nat) : Rat) / total then [nm]
            else nm :: topLoop total rest (accN + c) from rfl]
      rw [if_pos h]
      simp [takeCover, hcond.mp h]
    · rw [show topLoop total ((nm, c) :: rest) accN
          = if (9 : Rat) / 10 ≤ ((accN + c : Nat) : Rat) / total then [nm]
            else nm :: topLoop total rest (accN + c) from rfl]
      rw [if_neg h]
      have h2 : ¬ (9 : Rat) / 10 ≤ (accN : Rat) / total + (c : Rat) / total :=
        fun hh => h (hcond.mpr hh)
      simp only [takeCover, h2, if_false, List.map_cons, if_neg h2]
      rw [ih (accN + c)]
      congr 1
      rw [Nat.cast_add, add_div]

/-! ### Lemmas about indexing -/

instance : IsTotal Event (fun a b => a.timestamp ≤ b.timestamp) :=
  ⟨fun a b => le_total a.timestamp b.timestamp⟩

instance : IsTrans Event (fun a b => a.timestamp ≤ b.timestamp) :=
  ⟨fun _ _ _ h1 h2 => le_trans h1 h2⟩

theorem sortEvents_perm (l : List Event) : List.Perm (sortEvents l) l :=
  List.perm_insertionSort _ l

theorem sortEvents_sorted (l : List Event) :
    (sortEvents l).Sorted (fun a b => a.timestamp ≤ b.timestamp) :=
  List.sorted_insertionSort _ l

/-- Any row of `buildIndexed` copies an event of the partition and carries
Max_Rank = n and Seconds_From_Start relative to t0. -/
theorem mem_buildIndexed (n : Nat) (t0 : Rat) :
    ∀ (i : Nat) (l : List Event) (x : IndexedEvent), x ∈ buildIndexed n t0 i l →
      ∃ e ∈ l, x.caseId = e.caseId ∧ x.activity = e.activity ∧
        x.timestamp = e.timestamp ∧ x.maxRank = n ∧
        x.secondsFromStart = e.timestamp - t0 := by
  intro i l
  induction l generalizing i with
  | nil =>
    intro x hx
    simp [buildIndexed] at hx
  | cons e rest ih =>
    intro x hx
    rw [show buildIndexed n t0 i (e :: rest)
        = { caseId := e.caseId, activity := e.activity, timestamp := e.timestamp,
            eventRank := i, maxRank := n,
            secondsFromStart := e.timestamp - t0 } :: buildIndexed n t0 (i + 1) rest
        from rfl] at hx
    rcases List.mem_cons.mp hx with h | h
    · subst h
      exact ⟨e, by simp, rfl, rfl, rfl, rfl, rfl⟩
    · obtain ⟨e2, he2, h1, h2, h3, h4, h5⟩ := ih (i + 1) x h
      exact ⟨e2, by simp [he2], h1, h2, h3, h4, h5⟩

theorem buildIndexed_length (n : Nat) (t0 : Rat) :
    ∀ (i : Nat) (l : List Event), (buildIndexed n t0 i l).length = l.length := by
  intro i l
  induction l generalizing i with
  | nil => rfl
  | cons e rest ih => simp [buildIndexed, ih (i + 1)]

/-- The rank column of a partition is the arithmetic run i, i+1, ... -/
theorem buildIndexed_map_rank (n : Nat) (t0 : Rat) :
    ∀ (i : Nat) (l : List Event),
      (buildIndexed n t0 i l).map (·.eventRank) = List.range' i l.length := by
  intro i l
  induction l generalizing i with
  | nil => rfl
  | cons e rest ih =>
    rw [show buildIndexed n t0 i (e :: rest)
        = { caseId := e.caseId, activity := e.activity, timestamp := e.timestamp,
            eventRank := i, maxRank := n,
            secondsFromStart := e.timestamp - t0 } :: buildIndexed n t0 (i + 1) rest
        from rfl]
    rw [List.map_cons, ih (i + 1)]
    rfl

theorem buildIndexed_getLast_rank (n : Nat) (t0 : Rat) :
    ∀ (i : Nat) (l : List Event), l ≠ [] →
      ((buildIndexed n t0 i l).getLast?.map (·.eventRank)) = some (i + l.length - 1) := by
  intro i l
  induction l generalizing i with
  | nil => intro h; exact absurd rfl h
  | cons e rest ih =>
    intro _
    cases rest with
    | nil => rfl
    | cons e2 rest2 =>
      have h1 : buildIndexed n t0 i (e :: e2 :: rest2)
          = { caseId := e.caseId, activity := e.activity, timestamp := e.timestamp,
              eventRank := i, maxRank := n,
              secondsFromStart := e.timestamp - t0 }
            :: buildIndexed n t0 (i + 1) (e2 :: rest2) := rfl
      have h2 : buildIndexed n t0 (i + 1) (e2 :: rest2)
          = { caseId := e2.caseId, activity := e2.activity, timestamp := e2.timestamp,
              eventRank := i + 1, maxRank := n,
              secondsFromStart := e2.timestamp - t0 }
            :: buildIndexed n t0 (i + 2) rest2 := rfl
      rw [h1, h2, List.getLast?_cons_cons, ← h2, ih (i + 1) (by simp)]
      congr 1
      simp [List.length_cons]
      omega

theorem pairwise_buildIndexed (n : Nat) (t0 : Rat) :
    ∀ (i : Nat) (l : List Event),
      l.Pairwise (fun a b => a.timestamp ≤ b.timestamp) →
      (buildIndexed n t0 i l).Pairwise
        (fun a b => a.secondsFromStart ≤ b.secondsFromStart) := by
  intro i l
  induction l generalizing i with
  | nil =>
    intro _
    simp [buildIndexed]
  | cons e rest ih =>
    intro hp
    rcases List.pairwise_cons.mp hp with ⟨hhead, htail⟩
    rw [show buildIndexed n t0 i (e :: rest)
        = { caseId := e.caseId, activity := e.activity, timestamp := e.timestamp,
            eventRank := i, maxRank := n,
            secondsFromStart := e.timestamp - t0 } :: buildIndexed n t0 (i + 1) rest
        from rfl]
    refine List.pairwise_cons.mpr ⟨?_, ih (i + 1) htail⟩
    intro x hx
    obtain ⟨e2, he2, _, _, _, _, h5⟩ := mem_buildIndexed n t0 (i + 1) rest x hx
    have hle := hhead e2 he2
    show e.timestamp - t0 ≤ x.secondsFromStart
    rw [h5]
    linarith

/-- Under a sorted head, the head timestamp is minimal. -/
theorem sorted_head_min (h : Event) (t : List Event)
    (hs : (h :: t).Sorted (fun a b => a.timestamp ≤ b.timestamp)) :
    ∀ e ∈ h :: t, h.timestamp ≤ e.timestamp := by
  intro e he
  rcases List.mem_cons.mp he with rfl | he2
  · exact le_refl _
  · exact List.rel_of_sorted_cons hs e he2

/-- Any row of `indexCase` originates from an event of the partition and
carries Max_Rank = partition size. -/
theorem mem_indexCase (evs : List Event) (x : IndexedEvent) (hx : x ∈ indexCase evs) :
    ∃ e ∈ evs, x.caseId = e.caseId ∧ x.maxRank = evs.length := by
  simp only [indexCase] at hx
  obtain ⟨e, he, h1, _, _, h4, _⟩ := mem_buildIndexed _ _ 1 _ x hx
  refine ⟨e, (sortEvents_perm evs).mem_iff.mp he, h1, ?_⟩
  rw [h4, (sortEvents_perm evs).length_eq]

theorem indexCase_caseId_const (c : Nat) (evs : List Event)
    (h : ∀ e ∈ evs, e.caseId = c) : ∀ x ∈ indexCase evs, x.caseId = c := by
  intro x hx
  obtain ⟨e, he, h1, _⟩ := mem_indexCase evs x hx
  rw [h1, h e he]

theorem indexCase_sfs_nonneg (evs : List Event) :
    ∀ x ∈ indexCase evs, 0 ≤ x.secondsFromStart := by
  intro x hx
  simp only [indexCase] at hx
  cases hs : sortEvents evs with
  | nil =>
    rw [hs] at hx
    simp [buildIndexed] at hx
  | cons h t =>
    rw [hs] at hx
    obtain ⟨e, he, _, _, _, _, h5⟩ := mem_buildIndexed _ _ 1 _ x hx
    have hsorted := sortEvents_sorted evs
    rw [hs] at hsorted
    have hmin := sorted_head_min h t hsorted e he
    have : x.secondsFromStart = e.timestamp - h.timestamp := h5
    rw [this]
    linarith

theorem indexCase_pairwise_sfs (evs : List Event) :
    (indexCase evs).Pairwise (fun a b => a.secondsFromStart ≤ b.secondsFromStart) := by
  simp only [indexCase]
  exact pairwise_buildIndexed _ _ 1 _ (sortEvents_sorted evs)

theorem indexCase_map_rank (evs : List Event) :
    (indexCase evs).map (·.eventRank) = List.range' 1 (indexCase evs).length := by
  simp only [indexCase]
  rw [buildIndexed_map_rank, buildIndexed_length]

/-! ### Extracting one case block from the indexed table -/

theorem filter_flatMap_comm (l : List α) (f : α → List β) (p : β → Bool) :
    (l.flatMap f).filter p = l.flatMap (fun a => (f a).filter p) := by
  induction l with
  | nil => rfl
  | cons a t ih => simp [List.flatMap_cons, List.filter_append, ih]

theorem flatMap_eq_nil_of (l : List α) (f : α → List β)
    (h : ∀ a ∈ l, f a = []) : l.flatMap f = [] := by
  induction l with
  | nil => rfl
  | cons a t ih =>
    rw [List.flatMap_cons, h a (by simp), List.nil_append]
    exact ih (fun b hb => h b (by simp [hb]))

theorem flatMap_eq_single [DecidableEq α] (l : List α) (f : α → List β) (c : α)
    (hnd : l.Nodup) (hmem : c ∈ l) (hother : ∀ a ∈ l, a ≠ c → f a = []) :
    l.flatMap f = f c := by
  induction l with
  | nil => cases hmem
  | cons a t ih =>
    rcases List.nodup_cons.mp hnd with ⟨hna, hnt⟩
    rw [List.flatMap_cons]
    rcases List.mem_cons.mp hmem with rfl | hmemt
    · have htail : t.flatMap f = [] := by
        apply flatMap_eq_nil_of
        intro b hb
        exact hother b (by simp [hb]) (fun hbc => hna (hbc ▸ hb))
      rw [htail, List.append_nil]
    · have ha : f a = [] := by
        apply hother a (by simp)
        intro hac
        exact hna (hac ▸ hmemt)
      rw [ha, List.nil_append]
      exact ih hnt hmemt (fun b hb hbc => hother b (by simp [hb]) hbc)

theorem mem_caseIdsOf (log : List Event) (c : Nat) :
    c ∈ caseIdsOf log ↔ ∃ e ∈ log, e.caseId = c := by
  unfold caseIdsOf
  rw [(List.perm_insertionSort _ _).mem_iff, List.mem_dedup, List.mem_map]

theorem caseIdsOf_nodup (log : List Event) : (caseIdsOf log).Nodup := by
  unfold caseIdsOf
  exact ((List.perm_insertionSort _ _).nodup_iff).mpr (List.nodup_dedup _)

/-- Filtering the indexed table down to one case id gives exactly the indexed
partition of that case. -/
theorem indexLog_filter_case (log : List Event) (c : Nat) :
    (indexLog log).filter (fun r => r.caseId = c)
      = indexCase (log.filter (fun e => e.caseId = c)) := by
  unfold indexLog
  rw [filter_flatMap_comm]
  by_cases hc : ∃ e ∈ log, e.caseId = c
  · have hmem : c ∈ caseIdsOf log := (mem_caseIdsOf log c).mpr hc
    have hother : ∀ cp ∈ caseIdsOf log, cp ≠ c →
        (indexCase (log.filter (fun e => e.caseId = cp))).filter
          (fun r => r.caseId = c) = [] := by
      intro cp _ hne
      apply List.filter_eq_nil_iff.mpr
      intro x hx
      have hxc : x.caseId = cp := by
        apply indexCase_caseId_const cp _ _ x hx
        intro e he
        simpa using (List.mem_filter.mp he).2
      simp [hxc, hne]
    rw [flatMap_eq_single _ _ c (caseIdsOf_nodup log) hmem hother]
    apply List.filter_eq_self.mpr
    intro x hx
    have hxc : x.caseId = c := by
      apply indexCase_caseId_const c _ _ x hx
      intro e he
      simpa using (List.mem_filter.mp he).2
    simp [hxc]
  · have h1 : log.filter (fun e => e.caseId = c) = [] := by
      apply List.filter_eq_nil_iff.mpr
      intro e he
      simp only [decide_eq_true_eq]
      intro hec
      exact hc ⟨e, he, hec⟩
    rw [h1]
    rw [show indexCase [] = [] from rfl]
    apply flatMap_eq_nil_of
    intro cp hcp
    apply List.filter_eq_nil_iff.mpr
    intro x hx
    have hxc : x.caseId = cp := by
      apply indexCase_caseId_const cp _ _ x hx
      intro e he
      simpa using (List.mem_filter.mp he).2
    have hcpne : cp ≠ c := by
      intro hcc
      obtain ⟨e, he, hec⟩ := (mem_caseIdsOf log cp).mp hcp
      exact hc ⟨e, he, by rw [← hcc]; exact hec⟩
    simp [hxc, hcpne]

/-! ### Facts used by the variants branch -/

theorem dfBase_none_none (log : List Event) : dfBase log none none = indexLog log := by
  unfold dfBase
  apply List.filter_eq_self.mpr
  intro x _
  rfl

theorem mem_indexLog_orig (log : List Event) (x : IndexedEvent)
    (hx : x ∈ indexLog log) : ∃ e ∈ log, e.caseId = x.caseId := by
  unfold indexLog at hx
  rw [List.mem_flatMap] at hx
  obtain ⟨c, _, hxc⟩ := hx
  obtain ⟨e, he, h1, _⟩ := mem_indexCase _ x hxc
  exact ⟨e, (List.mem_filter.mp he).1, h1.symm⟩

/-- On a non-empty partition the two flags of the per-case record are 1: the
first rank of the partition is 1 and the last rank equals Max_Rank. -/
theorem caseRec_indexCase_flags (evs : List Event) (hne : evs ≠ []) :
    (caseRec (indexCase evs)).isTrueStart = 1
      ∧ (caseRec (indexCase evs)).isTrueEnd = 1 := by
  have hsne : sortEvents evs ≠ [] := by
    intro h
    apply hne
    have := (sortEvents_perm evs).length_eq
    rw [h] at this
    exact List.eq_nil_of_length_eq_zero this.symm
  cases hs : sortEvents evs with
  | nil => exact absurd hs hsne
  | cons h t =>
    have hrows : indexCase evs
        = { caseId := h.caseId, activity := h.activity, timestamp := h.timestamp,
            eventRank := 1, maxRank := (h :: t).length,
            secondsFromStart := h.timestamp - h.timestamp }
          :: buildIndexed (h :: t).length h.timestamp 2 t := by
      simp only [indexCase, hs]
      rfl
    have hlast : ((indexCase evs).getLast?.map (·.eventRank))
        = some (1 + (h :: t).length - 1) := by
      simp only [indexCase, hs]
      exact buildIndexed_getLast_rank _ _ 1 (h :: t) (by simp)
    obtain ⟨rl, hrl, hrlrank⟩ : ∃ rl, (indexCase evs).getLast? = some rl
        ∧ rl.eventRank = 1 + (h :: t).length - 1 := by
      cases hgl : (indexCase evs).getLast? with
      | none => rw [hgl] at hlast; simp at hlast
      | some rl =>
        rw [hgl] at hlast
        simp only [Option.map_some'] at hlast
        exact ⟨rl, rfl, by injection hlast⟩
    constructor
    · rw [show (caseRec (indexCase evs)).isTrueStart
          = (match (indexCase evs).head? with
             | some r => if r.eventRank = 1 then 1 else 0
             | none => 0) from rfl]
      rw [hrows]
      rfl
    · rw [show (caseRec (indexCase evs)).isTrueEnd
          = (match (indexCase evs).getLast?, (indexCase evs).head? with
             | some rl, some rf => if rl.eventRank = rf.maxRank then 1 else 0
             | _, _ => 0) from rfl]
      rw [hrl, hrows]
      simp only [List.head?_cons]
      have : rl.eventRank = (h :: t).length := by
        rw [hrlrank]
        omega
      simp [this]

theorem variantAggs_freq_pos (cs : List CaseRec) :
    ∀ v ∈ variantAggs cs, 0 < v.freq := by
  intro v hv
  unfold variantAggs at hv
  rw [List.mem_map] at hv
  obtain ⟨p, hp, hpv⟩ := hv
  rw [List.mem_dedup, List.mem_map] at hp
  obtain ⟨r, hr, hrp⟩ := hp
  have hmem : r ∈ cs.filter (fun r => r.path = p) :=
    List.mem_filter.mpr ⟨hr, by simp [hrp]⟩
  have hlen : 0 < (cs.filter (fun r => r.path = p)).length := by
    apply List.length_pos.mpr
    intro h
    rw [h] at hmem
    cases hmem
  rw [← hpv]
  exact hlen

theorem filterMin_subset (mc : Option Int) (vs : List VariantAgg) :
    ∀ v ∈ filterMin mc vs, v ∈ vs := by
  intro v hv
  cases mc with
  | none => exact hv
  | some m => exact (List.mem_filter.mp hv).1

theorem filterMin_freq_ge (m : Int) (vs : List VariantAgg) :
    ∀ v ∈ filterMin (some m) vs, m ≤ (v.freq : Int) := by
  intro v hv
  have := (List.mem_filter.mp hv).2
  simpa using this

theorem totalFreq_pos (vs : List VariantAgg) (hne : vs ≠ [])
    (hpos : ∀ v ∈ vs, 0 < v.freq) : 0 < totalFreq vs := by
  obtain ⟨v, hv⟩ := List.exists_mem_of_ne_nil vs hne
  have h1 : v.freq ≤ totalFreq vs := by
    unfold totalFreq
    exact List.single_le_sum (fun x _ => Nat.zero_le x) _ (List.mem_map_of_mem _ hv)
  exact lt_of_lt_of_le (hpos v hv) h1

theorem sum_map_div_const (l : List α) (f : α → Rat) (d : Rat) :
    (l.map (fun x => f x / d)).sum = (l.map f).sum / d := by
  induction l with
  | nil => simp
  | cons a t ih => simp [ih, add_div]

theorem withPercentage_pct (vs : List VariantAgg) (w : VariantRow)
    (hw : w ∈ withPercentage vs) :
    w.percentage = (w.freq : Rat) / (totalFreq vs : Rat) * 100
      ∧ ∃ v ∈ vs, w.freq = v.freq := by
  unfold withPercentage at hw
  rw [List.mem_map] at hw
  obtain ⟨v, hv, hvw⟩ := hw
  refine ⟨?_, v, hv, ?_⟩ <;> rw [← hvw]

theorem withPercentage_pos (vs : List VariantAgg) (hpos : ∀ v ∈ vs, 0 < v.freq)
    (hne : vs ≠ []) : ∀ w ∈ withPercentage vs, 0 < w.percentage := by
  intro w hw
  obtain ⟨hpct, v, hv, hfreq⟩ := withPercentage_pct vs w hw
  rw [hpct]
  have hT : (0 : Rat) < (totalFreq vs : Rat) := by
    exact_mod_cast totalFreq_pos vs hne hpos
  have hf : (0 : Rat) < (w.freq : Rat) := by
    have := hpos v hv
    rw [← hfreq] at this
    exact_mod_cast this
  exact mul_pos (div_pos hf hT) (by norm_num)

/-- The percentages of the filtered variant set sum to exactly 100. -/
theorem sum_percentage_eq_100 (vs : List VariantAgg) (hpos : ∀ v ∈ vs, 0 < v.freq)
    (hne : vs ≠ []) :
    ((withPercentage vs).map (·.percentage)).sum = 100 := by
  have hmap : (withPercentage vs).map (·.percentage)
      = vs.map (fun v => (v.freq : Rat) / (totalFreq vs : Rat) * 100) := by
    unfold withPercentage
    rw [List.map_map]
    rfl
  rw [hmap]
  rw [show (fun v : VariantAgg => (v.freq : Rat) / (totalFreq vs : Rat) * 100)
      = (fun v : VariantAgg => (v.freq : Rat) * (100 / (totalFreq vs : Rat)))
      from funext (fun v => by ring)]
  rw [List.sum_map_mul_right]
  have hcast : (vs.map (fun v : VariantAgg => (v.freq : Rat))).sum
      = ((totalFreq vs : Nat) : Rat) := by
    unfold totalFreq
    rw [Nat.cast_list_sum, List.map_map]
    rfl
  rw [hcast]
  have hT : ((totalFreq vs : Nat) : Rat) ≠ 0 := by
    have := totalFreq_pos vs hne hpos
    exact_mod_cast Nat.pos_iff_ne_zero.mp this
  field_simp

instance : IsTotal VariantRow (fun a b => b.freq ≤ a.freq) :=
  ⟨fun a b => le_total b.freq a.freq⟩

instance : IsTrans VariantRow (fun a b => b.freq ≤ a.freq) :=
  ⟨fun _ _ _ h1 h2 => le_trans h2 h1⟩

instance : IsTotal (String × Nat) (fun a b => b.2 ≤ a.2) :=
  ⟨fun a b => le_total b.2 a.2⟩

instance : IsTrans (String × Nat) (fun a b => b.2 ≤ a.2) :=
  ⟨fun _ _ _ h1 h2 => le_trans h2 h1⟩

theorem sortByFreqDesc_perm (vs : List VariantRow) :
    List.Perm (sortByFreqDesc vs) vs :=
  List.perm_insertionSort _ vs

theorem sortByFreqDesc_sorted (vs : List VariantRow) :
    (sortByFreqDesc vs).Sorted (fun a b => b.freq ≤ a.freq) :=
  List.sorted_insertionSort _ vs

theorem sortCountsDesc_perm (m : List (String × Nat)) :
    List.Perm (sortCountsDesc m) m :=
  List.perm_insertionSort _ m

theorem sortCountsDesc_sorted (m : List (String × Nat)) :
    (sortCountsDesc m).Sorted (fun a b => b.2 ≤ a.2) :=
  List.sorted_insertionSort _ m

/-- Coverage of the whole sorted-with-percentage list is exactly 1. -/
theorem covSum_sorted_eq_one (vs : List VariantAgg) (hpos : ∀ v ∈ vs, 0 < v.freq)
    (hne : vs ≠ []) :
    sumW (fun v => v.percentage / 100) (sortByFreqDesc (withPercentage vs)) = 1 := by
  unfold sumW
  rw [((sortByFreqDesc_perm (withPercentage vs)).map _).sum_eq]
  rw [show (fun v : VariantRow => v.percentage / 100)
      = (fun v : VariantRow => (fun u : VariantRow => u.percentage) v / 100) from rfl]
  rw [sum_map_div_const]
  rw [sum_percentage_eq_100 vs hpos hne]
  norm_num

theorem counts_total_cast (m : List (String × Nat)) :
    (((m.map (·.2)).sum : Nat) : Rat) = (m.map (fun p => (p.2 : Rat))).sum := by
  rw [Nat.cast_list_sum, List.map_map]
  rfl

/-! ### Facts used by the edges branch -/

theorem transitionsOf_eq_zipWith (l : List IndexedEvent) :
    transitionsOf l = List.zipWith mkTransition l l.tail := by
  induction l with
  | nil => rfl
  | cons a t ih =>
    cases t with
    | nil => rfl
    | cons b rest =>
      rw [show transitionsOf (a :: b :: rest)
          = mkTransition a b :: transitionsOf (b :: rest) from rfl]
      rw [ih]
      rfl

theorem transitionsOf_length (l : List IndexedEvent) :
    (transitionsOf l).length = l.length - 1 := by
  rw [transitionsOf_eq_zipWith, List.length_zipWith, List.length_tail]
  omega

theorem transitionsOf_sameCase (c : Nat) (l : List IndexedEvent)
    (h : ∀ x ∈ l, x.caseId = c) :
    ∀ t ∈ transitionsOf l, t.srcCase = c ∧ t.tgtCase = c := by
  induction l with
  | nil =>
    intro t ht
    simp [transitionsOf] at ht
  | cons a rest ih =>
    cases rest with
    | nil =>
      intro t ht
      simp [transitionsOf] at ht
    | cons b rest2 =>
      intro t ht
      rw [show transitionsOf (a :: b :: rest2)
          = mkTransition a b :: transitionsOf (b :: rest2) from rfl] at ht
      rcases List.mem_cons.mp ht with rfl | ht2
      · exact ⟨h a (by simp), h b (by simp)⟩
      · exact ih (fun x hx => h x (List.mem_cons_of_mem a hx)) t ht2

theorem allTransitions_sameCase (rows : List IndexedEvent) :
    ∀ t ∈ allTransitions rows, t.srcCase = t.tgtCase := by
  intro t ht
  unfold allTransitions at ht
  rw [List.mem_flatMap] at ht
  obtain ⟨c, _, htc⟩ := ht
  have h := transitionsOf_sameCase c (rows.filter (fun r => r.caseId = c))
    (fun x hx => by simpa using (List.mem_filter.mp hx).2) t htc
  rw [h.1, h.2]

theorem mem_filtMinCases (mc : Option Int) (es : List EdgeMetric) :
    ∀ e ∈ filtMinCases mc es, e ∈ es := by
  intro e he
  cases mc with
  | none => exact he
  | some m => exact (List.mem_filter.mp he).1

theorem mem_filtMaxCases (mc : Option Int) (es : List EdgeMetric) :
    ∀ e ∈ filtMaxCases mc es, e ∈ es := by
  intro e he
  cases mc with
  | none => exact he
  | some m => exact (List.mem_filter.mp he).1

theorem mem_filtMinMean (mm : Option Int) (es : List EdgeMetric) :
    ∀ e ∈ filtMinMean mm es, e ∈ es := by
  intro e he
  cases mm with
  | none => exact he
  | some m => exact (List.mem_filter.mp he).1

theorem mem_filtMaxMean (mm : Option Int) (es : List EdgeMetric) :
    ∀ e ∈ filtMaxMean mm es, e ∈ es := by
  intro e he
  cases mm with
  | none => exact he
  | some m => exact (List.mem_filter.mp he).1

theorem filtMinCases_ge (m : Int) (es : List EdgeMetric) :
    ∀ e ∈ filtMinCases (some m) es, m ≤ (e.caseCount : Int) := by
  intro e he
  have := (List.mem_filter.mp he).2
  simpa using this

theorem filtMaxCases_le (m : Int) (es : List EdgeMetric) :
    ∀ e ∈ filtMaxCases (some m) es, (e.caseCount : Int) ≤ m := by
  intro e he
  have := (List.mem_filter.mp he).2
  simpa using this

/-- Every edge surviving `applyEdgeFilters` with a min bound satisfies it. -/
theorem applyEdgeFilters_min (o : Options) (m : Int) (hm : o.minCases = some m)
    (es : List EdgeMetric) :
    ∀ e ∈ applyEdgeFilters o es, m ≤ (e.caseCount : Int) := by
  intro e he
  unfold applyEdgeFilters at he
  have h1 := mem_filtMinMean o.minMeanTime _ e (mem_filtMaxMean o.maxMeanTime _ e he)
  have h2 := mem_filtMaxCases o.maxCases _ e h1
  rw [hm] at h2
  exact filtMinCases_ge m es e h2

/-- Every edge surviving `applyEdgeFilters` with a max bound satisfies it. -/
theorem applyEdgeFilters_max (o : Options) (m : Int) (hm : o.maxCases = some m)
    (es : List EdgeMetric) :
    ∀ e ∈ applyEdgeFilters o es, (e.caseCount : Int) ≤ m := by
  intro e he
  unfold applyEdgeFilters at he
  have h1 := mem_filtMinMean o.minMeanTime _ e (mem_filtMaxMean o.maxMeanTime _ e he)
  rw [hm] at h1
  exact filtMaxCases_le m _ e h1

/-! ### Claims -/

/-- Claim C1, counterexample: the claim says the date bounds are applied
before indexing, so that EventRank / MaxRank / SecondsFromStart are computed
only over the in-range events.  On the log A(t=0), B(t=10), C(t=20) of one
case with endDate = 15, the source keeps ranks computed over all three
events (MaxRank = 3 on the surviving rows), while the spec reading would
reindex the two surviving events (MaxRank = 2): the two tables differ. -/
theorem c1_counterexample :
    dfBase [⟨1, "A", 0⟩, ⟨1, "B", 10⟩, ⟨1, "C", 20⟩] none (some 15)
      ≠ specDateFirstTable [⟨1, "A", 0⟩, ⟨1, "B", 10⟩, ⟨1, "C", 20⟩] none (some 15) := by
  with_unfolding_all decide

/-- Claim C1, amended: the date bounds are applied after indexing but before
aggregation: the working table holds exactly the in-range rows of the fully
indexed log, and each surviving row keeps a MaxRank equal to the size of its
whole case in the unfiltered log. -/
theorem c1_date_bounds (log : List Event) (sd ed : Option Rat) :
    (∀ r, r ∈ dfBase log sd ed ↔ (r ∈ indexLog log ∧ inRange sd ed r.timestamp = true))
      ∧ (∀ r ∈ dfBase log sd ed,
          r.maxRank = (log.filter (fun e => e.caseId = r.caseId)).length) := by
  constructor
  · intro r
    unfold dfBase
    exact List.mem_filter
  · intro r hr
    have hrIdx : r ∈ indexLog log := (List.mem_filter.mp hr).1
    have h2 : r ∈ (indexLog log).filter (fun x => x.caseId = r.caseId) :=
      List.mem_filter.mpr ⟨hrIdx, by simp⟩
    rw [indexLog_filter_case] at h2
    obtain ⟨e, he, _, h4⟩ := mem_indexCase _ r h2
    exact h4

/-- Claim C1, witness for the amended theorem at a concrete row of the
filtered table: the surviving first event keeps MaxRank computed over the
whole three-event case. -/
theorem c1_date_bounds_witness :
    (⟨1, "A", 0, 1, 3, 0⟩ : IndexedEvent).maxRank
      = (([⟨1, "A", 0⟩, ⟨1, "B", 10⟩, ⟨1, "C", 20⟩] : List Event).filter
          (fun e => e.caseId = (⟨1, "A", 0, 1, 3, 0⟩ : IndexedEvent).caseId)).length :=
  (c1_date_bounds [⟨1, "A", 0⟩, ⟨1, "B", 10⟩, ⟨1, "C", 20⟩] none (some 15)).2
    ⟨1, "A", 0, 1, 3, 0⟩ (by with_unfolding_all decide)

/-- Claim C2, counterexample: with an endDate that truncates the case
A(t=0), B(t=10) at 5, the surviving case record has Is_True_End = 0 (its
last surviving rank 1 differs from the Max_Rank 2 computed pre-filter), so
the flags are not always 1 for every option setting. -/
theorem c2_counterexample :
    (caseRecs (dfBase [⟨1, "A", 0⟩, ⟨1, "B", 10⟩] none (some 5))).map (·.isTrueEnd)
      = [0] := by
  with_unfolding_all rfl

/-- Claim C2, amended: when no date bounds are set, every case record of the
variant derivation has Is_True_Start = 1 and Is_True_End = 1. -/
theorem c2_flags (log : List Event) (r : CaseRec)
    (h : r ∈ caseRecs (dfBase log none none)) :
    r.isTrueStart = 1 ∧ r.isTrueEnd = 1 := by
  rw [dfBase_none_none] at h
  unfold caseRecs at h
  rw [List.mem_map] at h
  obtain ⟨c, hc, hr⟩ := h
  rw [indexLog_filter_case] at hr
  rw [List.mem_dedup, List.mem_map] at hc
  obtain ⟨row, hrow, hrowc⟩ := hc
  obtain ⟨e, he, hec⟩ := mem_indexLog_orig log row hrow
  have hne : log.filter (fun x => x.caseId = c) ≠ [] := by
    intro hnil
    have hmem : e ∈ log.filter (fun x => x.caseId = c) :=
      List.mem_filter.mpr ⟨he, by simp [hec, hrowc]⟩
    rw [hnil] at hmem
    cases hmem
  rw [← hr]
  exact caseRec_indexCase_flags _ hne

/-- Claim C2, witness: the unique case record of the two-event log has both
flags equal to 1. -/
theorem c2_flags_witness :
    (⟨["A", "B"], [0, 10], 1, 1⟩ : CaseRec).isTrueStart = 1
      ∧ (⟨["A", "B"], [0, 10], 1, 1⟩ : CaseRec).isTrueEnd = 1 :=
  c2_flags [⟨1, "A", 0⟩, ⟨1, "B", 10⟩] ⟨["A", "B"], [0, 10], 1, 1⟩
    (by with_unfolding_all decide)

/-- Claim C3: in the indexed table, each case with N rows carries EventRank
values that are exactly 1, ..., N in order (hence each exactly once), its
SecondsFromStart values are non-negative, and they are monotonically
non-decreasing along increasing rank. -/
theorem c3_rank_permutation (log : List Event) (c : Nat) :
    ((indexLog log).filter (fun r => r.caseId = c)).map (·.eventRank)
        = List.range' 1 ((indexLog log).filter (fun r => r.caseId = c)).length
      ∧ (∀ r ∈ (indexLog log).filter (fun r => r.caseId = c), 0 ≤ r.secondsFromStart)
      ∧ ((indexLog log).filter (fun r => r.caseId = c)).Pairwise
          (fun a b => a.secondsFromStart ≤ b.secondsFromStart) := by
  rw [indexLog_filter_case]
  exact ⟨indexCase_map_rank _, indexCase_sfs_nonneg _, indexCase_pairwise_sfs _⟩

/-- Claim C3, witness: ranks of the two-event case are [1, 2], and the
second row (a concrete member of the case partition) has a non-negative
elapsed time. -/
theorem c3_rank_permutation_witness :
    ((indexLog [⟨1, "A", 0⟩, ⟨1, "B", 10⟩]).filter (fun r => r.caseId = 1)).map (·.eventRank)
        = List.range' 1 ((indexLog [⟨1, "A", 0⟩, ⟨1, "B", 10⟩]).filter
            (fun r => r.caseId = 1)).length
      ∧ 0 ≤ (⟨1, "B", 10, 2, 2, 10⟩ : IndexedEvent).secondsFromStart :=
  ⟨(c3_rank_permutation [⟨1, "A", 0⟩, ⟨1, "B", 10⟩] 1).1,
   (c3_rank_permutation [⟨1, "A", 0⟩, ⟨1, "B", 10⟩] 1).2.1
     ⟨1, "B", 10, 2, 2, 10⟩ (by with_unfolding_all decide)⟩

/-- Claim C4: within each case of the working table, the transition
derivation pairs each row with its immediate successor (a zip of the
partition with its own tail), so a partition of N rows yields exactly
max(N-1, 0) transitions, and every derived transition joins two rows of the
same case. -/
theorem c4_transition_counts (log : List Event) (sd ed : Option Rat) (c : Nat) :
    (transitionsOf ((dfBase log sd ed).filter (fun r => r.caseId = c))).length
        = ((dfBase log sd ed).filter (fun r => r.caseId = c)).length - 1
      ∧ transitionsOf ((dfBase log sd ed).filter (fun r => r.caseId = c))
          = List.zipWith mkTransition ((dfBase log sd ed).filter (fun r => r.caseId = c))
              ((dfBase log sd ed).filter (fun r => r.caseId = c)).tail
      ∧ ∀ t ∈ allTransitions (dfBase log sd ed), t.srcCase = t.tgtCase :=
  ⟨transitionsOf_length _, transitionsOf_eq_zipWith _, allTransitions_sameCase _⟩

/-- Claim C4, witness: the two-event case yields exactly one transition, and
the concrete transition of the table joins rows of the same case. -/
theorem c4_transition_counts_witness :
    (transitionsOf ((dfBase [⟨1, "A", 0⟩, ⟨1, "B", 10⟩] none none).filter
        (fun r => r.caseId = 1))).length
      = ((dfBase [⟨1, "A", 0⟩, ⟨1, "B", 10⟩] none none).filter
          (fun r => r.caseId = 1)).length - 1
      ∧ (⟨1, 1, "A", "B", 10⟩ : Transition).srcCase
          = (⟨1, 1, "A", "B", 10⟩ : Transition).tgtCase :=
  ⟨(c4_transition_counts [⟨1, "A", 0⟩, ⟨1, "B", 10⟩] none none 1).1,
   (c4_transition_counts [⟨1, "A", 0⟩, ⟨1, "B", 10⟩] none none 1).2.2
     ⟨1, 1, "A", "B", 10⟩ (by with_unfolding_all decide)⟩

/-- Claim C5: for a non-empty variant set, the Pareto reduction returns the
frequency-descending prefix up to and including the first variant at which
cumulative coverage reaches 0.95 and nothing after it: the reduced set is a
non-empty prefix of the frequency-sorted list, its coverage is at least
0.95, and every shorter prefix has coverage below 0.95. -/
theorem c5_pareto_reduction (log : List Event) (sd ed : Option Rat) (mc : Option Int)
    (vs : List VariantRow)
    (hvs : vs = sortByFreqDesc (withPercentage (filteredVariants log sd ed mc)))
    (hne : vs ≠ []) :
    vs.Sorted (fun a b => b.freq ≤ a.freq)
      ∧ ∃ k, 0 < k ∧ paretoCut vs = vs.take k
          ∧ (95 : Rat) / 100 ≤ sumW (fun v => v.percentage / 100) (vs.take k)
          ∧ ∀ j < k, sumW (fun v => v.percentage / 100) (vs.take j) < (95 : Rat) / 100 := by
  subst hvs
  have hfpos : ∀ v ∈ filteredVariants log sd ed mc, 0 < v.freq := fun v hv =>
    variantAggs_freq_pos _ v (filterMin_subset _ _ v hv)
  have hfne : filteredVariants log sd ed mc ≠ [] := by
    intro h
    apply hne
    rw [h]
    rfl
  have hpos : ∀ w ∈ sortByFreqDesc (withPercentage (filteredVariants log sd ed mc)),
      0 < w.percentage := by
    intro w hw
    exact withPercentage_pos _ hfpos hfne w ((sortByFreqDesc_perm _).mem_iff.mp hw)
  refine ⟨sortByFreqDesc_sorted _, ?_⟩
  have heq : paretoCut (sortByFreqDesc (withPercentage (filteredVariants log sd ed mc)))
      = takeCover (fun v => v.percentage / 100) ((95 : Rat) / 100)
          (sortByFreqDesc (withPercentage (filteredVariants log sd ed mc))) 0 := by
    unfold paretoCut
    exact paretoSelect_eq _ 0 hpos
  obtain ⟨k, hk1, hk2, hk3, hk4⟩ := takeCover_spec (fun v => v.percentage / 100)
    ((95 : Rat) / 100) (sortByFreqDesc (withPercentage (filteredVariants log sd ed mc)))
    0 (by norm_num)
  refine ⟨k, hk2 hne, by rw [heq, hk1], ?_, ?_⟩
  · have hcov : (95 : Rat) / 100
        ≤ 0 + sumW (fun v => v.percentage / 100)
            (sortByFreqDesc (withPercentage (filteredVariants log sd ed mc))) := by
      rw [zero_add, covSum_sorted_eq_one _ hfpos hfne]
      norm_num
    have := hk4 hcov
    rwa [zero_add] at this
  · intro j hj
    have := hk3 j hj
    rwa [zero_add] at this

/-- Claim C5, witness: the single-variant set of a one-event log is reduced
to itself, the prefix of length 1 with full coverage. -/
theorem c5_pareto_reduction_witness :
    (sortByFreqDesc (withPercentage
        (filteredVariants [⟨1, "A", 0⟩] none none none))).Sorted
          (fun a b => b.freq ≤ a.freq)
      ∧ ∃ k, 0 < k
          ∧ paretoCut (sortByFreqDesc (withPercentage
              (filteredVariants [⟨1, "A", 0⟩] none none none)))
            = (sortByFreqDesc (withPercentage
                (filteredVariants [⟨1, "A", 0⟩] none none none))).take k
          ∧ (95 : Rat) / 100 ≤ sumW (fun v => v.percentage / 100)
              ((sortByFreqDesc (withPercentage
                (filteredVariants [⟨1, "A", 0⟩] none none none))).take k)
          ∧ ∀ j < k, sumW (fun v => v.percentage / 100)
              ((sortByFreqDesc (withPercentage
                (filteredVariants [⟨1, "A", 0⟩] none none none))).take j)
              < (95 : Rat) / 100 :=
  c5_pareto_reduction [⟨1, "A", 0⟩] none none none _ rfl
    (by with_unfolding_all decide)

/-- In the non-degenerate case `get_top_nodes` is just its selection loop on
the descending-sorted counts. -/
theorem getTopNodes_eq (counts : List (String × Nat)) (hne : counts ≠ [])
    (hT : (counts.map (·.2)).sum ≠ 0)
    (hsel : topLoop (((counts.map (·.2)).sum : Nat) : Rat) (sortCountsDesc counts) 0 ≠ []) :
    getTopNodes counts
      = topLoop (((counts.map (·.2)).sum : Nat) : Rat) (sortCountsDesc counts) 0 := by
  have h1 : counts.isEmpty = false := by
    cases counts with
    | nil => exact absurd rfl hne
    | cons a t => rfl
  have h2 : (topLoop (((counts.map (·.2)).sum : Nat) : Rat)
      (sortCountsDesc counts) 0).isEmpty = false := by
    cases hl : topLoop (((counts.map (·.2)).sum : Nat) : Rat) (sortCountsDesc counts) 0 with
    | nil => exact absurd hl hsel
    | cons a t => rfl
  simp only [getTopNodes, h1, Bool.false_eq_true, if_false, if_neg hT, h2,
    Bool.false_and]

/-- Claim C6: the boundary-node selector returns an empty list on an empty
mapping; on a non-empty mapping of positive counts it returns the activities
of the minimal descending-count prefix whose running count sum over the
total count reaches 0.90, inclusive of the crossing element (so at least the
single highest-count activity). -/
theorem c6_top_nodes (counts : List (String × Nat))
    (hpos : ∀ p ∈ counts, 0 < p.2) :
    (counts = [] → getTopNodes counts = [])
      ∧ (counts ≠ [] →
          (sortCountsDesc counts).Sorted (fun a b => b.2 ≤ a.2)
            ∧ ∃ k, 0 < k
                ∧ getTopNodes counts = ((sortCountsDesc counts).take k).map Prod.fst
                ∧ (9 : Rat) / 10
                    ≤ (((((sortCountsDesc counts).take k).map (·.2)).sum : Nat) : Rat)
                        / (((counts.map (·.2)).sum : Nat) : Rat)
                ∧ ∀ j < k,
                    (((((sortCountsDesc counts).take j).map (·.2)).sum : Nat) : Rat)
                        / (((counts.map (·.2)).sum : Nat) : Rat) < (9 : Rat) / 10) := by
  constructor
  · intro h
    rw [h]
    rfl
  · intro hne
    refine ⟨sortCountsDesc_sorted counts, ?_⟩
    have hTpos : 0 < (counts.map (·.2)).sum := by
      obtain ⟨p, hp⟩ := List.exists_mem_of_ne_nil counts hne
      exact lt_of_lt_of_le (hpos p hp)
        (List.single_le_sum (fun x _ => Nat.zero_le x) _ (List.mem_map_of_mem _ hp))
    have hTQ : (0 : Rat) < (((counts.map (·.2)).sum : Nat) : Rat) := by
      exact_mod_cast hTpos
    have hsne : sortCountsDesc counts ≠ [] := by
      intro h
      apply hne
      have := (sortCountsDesc_perm counts).length_eq
      rw [h] at this
      exact List.eq_nil_of_length_eq_zero this.symm
    have hsumW : ∀ l : List (String × Nat),
        sumW (fun p : String × Nat =>
          (p.2 : Rat) / (((counts.map (·.2)).sum : Nat) : Rat)) l
        = (((l.map (·.2)).sum : Nat) : Rat) / (((counts.map (·.2)).sum : Nat) : Rat) := by
      intro l
      unfold sumW
      rw [show (fun p : String × Nat =>
          (p.2 : Rat) / (((counts.map (·.2)).sum : Nat) : Rat))
        = (fun p : String × Nat =>
          (fun q : String × Nat => (q.2 : Rat)) p / (((counts.map (·.2)).sum : Nat) : Rat))
        from rfl]
      rw [sum_map_div_const, ← counts_total_cast]
    obtain ⟨k, hk1, hk2, hk3, hk4⟩ := takeCover_spec
      (fun p : String × Nat => (p.2 : Rat) / (((counts.map (·.2)).sum : Nat) : Rat))
      ((9 : Rat) / 10) (sortCountsDesc counts) 0 (by norm_num)
    have h0 : (((0 : Nat) : Rat) / (((counts.map (·.2)).sum : Nat) : Rat)) = 0 := by
      simp
    have hloop : topLoop (((counts.map (·.2)).sum : Nat) : Rat) (sortCountsDesc counts) 0
        = (takeCover (fun p : String × Nat =>
              (p.2 : Rat) / (((counts.map (·.2)).sum : Nat) : Rat))
            ((9 : Rat) / 10) (sortCountsDesc counts) 0).map Prod.fst := by
      rw [topLoop_eq, h0]
    have hsel_ne : topLoop (((counts.map (·.2)).sum : Nat) : Rat)
        (sortCountsDesc counts) 0 ≠ [] := by
      rw [hloop, hk1]
      intro hmapnil
      have h0len : ((((sortCountsDesc counts).take k).map Prod.fst)).length = 0 := by
        rw [hmapnil]
        rfl
      rw [List.length_map, List.length_take] at h0len
      have hlen : 0 < (sortCountsDesc counts).length := List.length_pos.mpr hsne
      have hkpos := hk2 hsne
      omega
    rw [getTopNodes_eq counts hne (Nat.pos_iff_ne_zero.mp hTpos) hsel_ne, hloop, hk1]
    refine ⟨k, hk2 hsne, rfl, ?_, ?_⟩
    · have hfull : (9 : Rat) / 10
          ≤ 0 + sumW (fun p : String × Nat =>
              (p.2 : Rat) / (((counts.map (·.2)).sum : Nat) : Rat))
              (sortCountsDesc counts) := by
        rw [zero_add, hsumW]
        have hperm : (((sortCountsDesc counts).map (·.2)).sum : Nat)
            = ((counts.map (·.2)).sum : Nat) := by
          have := ((sortCountsDesc_perm counts).map (fun p : String × Nat => p.2)).sum_eq
          exact this
        rw [hperm, div_self (ne_of_gt hTQ)]
        norm_num
      have := hk4 hfull
      rw [zero_add, hsumW] at this
      exact this
    · intro j hj
      have := hk3 j hj
      rw [zero_add, hsumW] at this
      exact this

/-- Claim C6, witness: the mapping A has 9, B has 1 selects exactly [A],
the shortest prefix reaching 90 percent. -/
theorem c6_top_nodes_witness :
    (∀ p ∈ [("A", 9), ("B", 1)], 0 < p.2)
      ∧ (([("A", 9), ("B", 1)] : List (String × Nat)) = []
          → getTopNodes [("A", 9), ("B", 1)] = [])
      ∧ (([("A", 9), ("B", 1)] : List (String × Nat)) ≠ []
          → (sortCountsDesc [("A", 9), ("B", 1)]).Sorted (fun a b => b.2 ≤ a.2)
            ∧ ∃ k, 0 < k
                ∧ getTopNodes [("A", 9), ("B", 1)]
                    = ((sortCountsDesc [("A", 9), ("B", 1)]).take k).map Prod.fst
                ∧ (9 : Rat) / 10
                    ≤ (((((sortCountsDesc [("A", 9), ("B", 1)]).take k).map (·.2)).sum : Nat) : Rat)
                        / ((([("A", 9), ("B", 1)].map (·.2)).sum : Nat) : Rat)
                ∧ ∀ j < k,
                    (((((sortCountsDesc [("A", 9), ("B", 1)]).take j).map (·.2)).sum : Nat) : Rat)
                        / ((([("A", 9), ("B", 1)].map (·.2)).sum : Nat) : Rat)
                      < (9 : Rat) / 10) :=
  ⟨by decide, (c6_top_nodes [("A", 9), ("B", 1)] (by decide)).1,
    (c6_top_nodes [("A", 9), ("B", 1)] (by decide)).2⟩

/-- Claim C7, counterexample: a NaN input does not return the empty string.
In polars `is_null` is false on NaN and `NaN == 0` is false, so a NaN value
falls through to the formatting branch and renders as non-empty NaN text,
contradicting the claim that null or NaN both give the empty string. -/
theorem c7_counterexample : formatSecondsToDays FloatVal.nan ≠ "" := by
  decide

/-- Claim C7, amended: the formatter maps 0 to the zero token which is
distinct from the empty string, null to the empty string, and NaN to the
non-empty rendered NaN text. -/
theorem c7_formatter (q : Rat) (hq : q = 0) :
    formatSecondsToDays (FloatVal.num q) = "0s"
      ∧ ("0s" : String) ≠ ""
      ∧ formatSecondsToDays FloatVal.null = ""
      ∧ formatSecondsToDays FloatVal.nan = "NaN روز " := by
  subst hq
  exact ⟨rfl, by decide, rfl, rfl⟩

/-- Claim C7, witness: the amended formatter facts at the concrete input 0. -/
theorem c7_formatter_witness :
    formatSecondsToDays (FloatVal.num 0) = "0s"
      ∧ ("0s" : String) ≠ ""
      ∧ formatSecondsToDays FloatVal.null = ""
      ∧ formatSecondsToDays FloatVal.nan = "NaN روز " :=
  c7_formatter 0 rfl

/-- Claim C8, counterexample: with contradictory bounds minCases = 5 and
maxCases = 1, the pipeline does not fail before computing: it runs to
completion and returns an ordinary (here fully empty) result record. -/
theorem c8_counterexample :
    processData [⟨1, "X", 0⟩, ⟨2, "X", 5⟩, ⟨3, "A", 0⟩, ⟨3, "B", 10⟩]
        { minCases := some 5, maxCases := some 1 }
      = { graphData := [], variants := [], startActivities := [], endActivities := [] } := by
  with_unfolding_all rfl

/-- Claim C8, amended: no configuration validation exists; contradictory
case-count bounds (min greater than max) are not rejected, the computation
runs and simply produces an empty edge list. -/
theorem c8_contradictory_bounds (log : List Event) (o : Options) (a b : Int)
    (hmin : o.minCases = some a) (hmax : o.maxCases = some b) (hcontra : b < a) :
    (processData log o).graphData = [] := by
  have hnil : applyEdgeFilters o
      (edgeMetrics (allTransitions (dfBase log o.startDate o.endDate))) = [] := by
    apply List.eq_nil_iff_forall_not_mem.mpr
    intro e he
    have h1 := applyEdgeFilters_min o a hmin _ e he
    have h2 := applyEdgeFilters_max o b hmax _ e he
    omega
  show (applyEdgeFilters o
      (edgeMetrics (allTransitions (dfBase log o.startDate o.endDate)))).map (mkEdge o) = []
  rw [hnil]
  rfl

/-- Claim C8, witness: the amended theorem at the concrete contradictory
options minCases = 5, maxCases = 1. -/
theorem c8_contradictory_bounds_witness :
    (processData [⟨1, "X", 0⟩, ⟨2, "X", 5⟩, ⟨3, "A", 0⟩, ⟨3, "B", 10⟩]
        { minCases := some 5, maxCases := some 1 }).graphData = [] :=
  c8_contradictory_bounds [⟨1, "X", 0⟩, ⟨2, "X", 5⟩, ⟨3, "A", 0⟩, ⟨3, "B", 10⟩]
    { minCases := some 5, maxCases := some 1 } 5 1 rfl rfl (by decide)

/-- Claim C9: the variants, startActivities and endActivities outputs depend
only on the date bounds and minCases: any two option records agreeing on
those three fields produce identical variant outputs whatever their
maxCases, minMeanTime, maxMeanTime, weight metric or time unit; and on the
concrete log of two one-event X cases plus one A-B case with minCases = 2,
graphData is empty while variants is not. -/
theorem c9_variant_frame :
    (∀ (log : List Event) (o1 o2 : Options),
        o1.startDate = o2.startDate → o1.endDate = o2.endDate →
        o1.minCases = o2.minCases →
        (processData log o1).variants = (processData log o2).variants
          ∧ (processData log o1).startActivities = (processData log o2).startActivities
          ∧ (processData log o1).endActivities = (processData log o2).endActivities)
      ∧ ((processData [⟨1, "X", 0⟩, ⟨2, "X", 5⟩, ⟨3, "A", 0⟩, ⟨3, "B", 10⟩]
            { minCases := some 2 }).graphData = []
          ∧ (processData [⟨1, "X", 0⟩, ⟨2, "X", 5⟩, ⟨3, "A", 0⟩, ⟨3, "B", 10⟩]
              { minCases := some 2 }).variants ≠ []) := by
  constructor
  · intro log o1 o2 h1 h2 h3
    refine ⟨?_, ?_, ?_⟩
    · show (getVariantsLogic (dfBase log o1.startDate o1.endDate) o1.minCases).1
          = (getVariantsLogic (dfBase log o2.startDate o2.endDate) o2.minCases).1
      rw [h1, h2, h3]
    · show (getVariantsLogic (dfBase log o1.startDate o1.endDate) o1.minCases).2.1
          = (getVariantsLogic (dfBase log o2.startDate o2.endDate) o2.minCases).2.1
      rw [h1, h2, h3]
    · show (getVariantsLogic (dfBase log o1.startDate o1.endDate) o1.minCases).2.2
          = (getVariantsLogic (dfBase log o2.startDate o2.endDate) o2.minCases).2.2
      rw [h1, h2, h3]
  · constructor
    · with_unfolding_all rfl
    · with_unfolding_all decide

/-- Claim C9, witness: two concrete option records differing only in
maxCases, minMeanTime, weight metric and time unit give identical variant
outputs on the two-case log. -/
theorem c9_variant_frame_witness :
    (processData [⟨1, "X", 0⟩, ⟨1, "Y", 10⟩, ⟨2, "X", 0⟩, ⟨2, "Y", 20⟩]
        { maxCases := some 99, minMeanTime := some 3,
          weightMetric := .meanTime, timeUnit := .h }).variants
      = (processData [⟨1, "X", 0⟩, ⟨1, "Y", 10⟩, ⟨2, "X", 0⟩, ⟨2, "Y", 20⟩] {}).variants
    ∧ (processData [⟨1, "X", 0⟩, ⟨1, "Y", 10⟩, ⟨2, "X", 0⟩, ⟨2, "Y", 20⟩]
        { maxCases := some 99, minMeanTime := some 3,
          weightMetric := .meanTime, timeUnit := .h }).startActivities
      = (processData [⟨1, "X", 0⟩, ⟨1, "Y", 10⟩, ⟨2, "X", 0⟩, ⟨2, "Y", 20⟩] {}).startActivities
    ∧ (processData [⟨1, "X", 0⟩, ⟨1, "Y", 10⟩, ⟨2, "X", 0⟩, ⟨2, "Y", 20⟩]
        { maxCases := some 99, minMeanTime := some 3,
          weightMetric := .meanTime, timeUnit := .h }).endActivities
      = (processData [⟨1, "X", 0⟩, ⟨1, "Y", 10⟩, ⟨2, "X", 0⟩, ⟨2, "Y", 20⟩] {}).endActivities :=
  c9_variant_frame.1 [⟨1, "X", 0⟩, ⟨1, "Y", 10⟩, ⟨2, "X", 0⟩, ⟨2, "Y", 20⟩]
    { maxCases := some 99, minMeanTime := some 3,
      weightMetric := .meanTime, timeUnit := .h } {} rfl rfl rfl

/-- Claim C10: a single minCases value m is used both as the inclusive lower
bound on edge CaseCount and as the variant Frequency floor; each surviving
variant has Percentage = Frequency / (total Frequency of the variants
remaining after the filter) * 100, and those percentages sum to exactly 100
over the filtered variant set. -/
theorem c10_min_cases_shared (log : List Event) (o : Options) (m : Int)
    (hm : o.minCases = some m) :
    (∀ em ∈ applyEdgeFilters o
        (edgeMetrics (allTransitions (dfBase log o.startDate o.endDate))),
        m ≤ (em.caseCount : Int))
      ∧ (∀ v ∈ filteredVariants log o.startDate o.endDate o.minCases,
          m ≤ (v.freq : Int))
      ∧ (∀ w ∈ withPercentage (filteredVariants log o.startDate o.endDate o.minCases),
          w.percentage = (w.freq : Rat)
            / (totalFreq (filteredVariants log o.startDate o.endDate o.minCases) : Rat)
            * 100)
      ∧ (filteredVariants log o.startDate o.endDate o.minCases ≠ [] →
          ((withPercentage (filteredVariants log o.startDate o.endDate o.minCases)).map
              (·.percentage)).sum = 100) := by
  refine ⟨applyEdgeFilters_min o m hm _, ?_, ?_, ?_⟩
  · intro v hv
    rw [hm] at hv
    exact filterMin_freq_ge m _ v hv
  · intro w hw
    exact (withPercentage_pct _ w hw).1
  · intro hne
    apply sum_percentage_eq_100
    · intro v hv
      exact variantAggs_freq_pos _ v (filterMin_subset _ _ v hv)
    · exact hne

/-- Claim C10, witness: on the two-case log with minCases = 1 the filtered
variant percentages sum to 100, and the surviving variant frequency meets
the floor. -/
theorem c10_min_cases_shared_witness :
    ((withPercentage (filteredVariants
        [⟨1, "X", 0⟩, ⟨1, "Y", 10⟩, ⟨2, "X", 0⟩, ⟨2, "Y", 20⟩] none none (some 1))).map
        (·.percentage)).sum = 100 :=
  (c10_min_cases_shared [⟨1, "X", 0⟩, ⟨1, "Y", 10⟩, ⟨2, "X", 0⟩, ⟨2, "Y", 20⟩]
      { minCases := some 1 } 1 rfl).2.2.2 (by with_unfolding_all decide)

/-- `bump` keeps all counts positive when the increment is positive. -/
theorem bump_pos (m : List (String × Nat)) (k : String) (v : Nat)
    (hm : ∀ p ∈ m, 0 < p.2) (hv : 0 < v) : ∀ p ∈ bump m k v, 0 < p.2 := by
  induction m with
  | nil =>
    intro p hp
    rcases List.mem_cons.mp hp with rfl | hp2
    · exact hv
    · cases hp2
  | cons q rest ih =>
    obtain ⟨k0, v0⟩ := q
    intro p hp
    by_cases hk : k0 = k
    · rw [show bump ((k0, v0) :: rest) k v = (k0, v0 + v) :: rest from by
        simp [bump, hk]] at hp
      rcases List.mem_cons.mp hp with rfl | hp2
      · have := hm (k0, v0) (by simp)
        simp only []
        omega
      · exact hm p (by simp [hp2])
    · rw [show bump ((k0, v0) :: rest) k v = (k0, v0) :: bump rest k v from by
        simp [bump, hk]] at hp
      rcases List.mem_cons.mp hp with rfl | hp2
      · exact hm (k0, v0) (by simp)
      · exact ih (fun p hp => hm p (by simp [hp])) p hp2

/-- The start and end count mappings accumulated over the Pareto variants
contain only positive counts: the positivity hypothesis of the boundary-node
claim holds for every mapping the pipeline actually builds. -/
theorem accumNodes_pos (vs : List VariantRow) :
    (∀ p ∈ (accumNodes vs).1, 0 < p.2) ∧ (∀ p ∈ (accumNodes vs).2, 0 < p.2) := by
  suffices h : ∀ (acc : List (String × Nat) × List (String × Nat)),
      (∀ p ∈ acc.1, 0 < p.2) → (∀ p ∈ acc.2, 0 < p.2) →
      (∀ p ∈ (vs.foldl (fun acc v =>
        match v.path with
        | [] => acc
        | h :: t =>
          let acc1 := if 0 < v.tsc then bump acc.1 h v.tsc else acc.1
          let acc2 := if 0 < v.tec then bump acc.2 ((h :: t).getLastD h) v.tec else acc.2
          (acc1, acc2)) acc).1, 0 < p.2)
      ∧ (∀ p ∈ (vs.foldl (fun acc v =>
        match v.path with
        | [] => acc
        | h :: t =>
          let acc1 := if 0 < v.tsc then bump acc.1 h v.tsc else acc.1
          let acc2 := if 0 < v.tec then bump acc.2 ((h :: t).getLastD h) v.tec else acc.2
          (acc1, acc2)) acc).2, 0 < p.2) by
    exact h ([], []) (by intro p hp; cases hp) (by intro p hp; cases hp)
  induction vs with
  | nil =>
    intro acc h1 h2
    exact ⟨h1, h2⟩
  | cons v rest ih =>
    intro acc h1 h2
    rw [List.foldl_cons]
    apply ih
    · cases hp : v.path with
      | nil =>
        simp only [hp]
        exact h1
      | cons h t =>
        simp only [hp]
        by_cases hs : 0 < v.tsc
        · simp only [if_pos hs]
          exact bump_pos acc.1 h v.tsc h1 hs
        · simp only [if_neg hs]
          exact h1
    · cases hp : v.path with
      | nil =>
        simp only [hp]
        exact h2
      | cons h t =>
        simp only [hp]
        by_cases hs : 0 < v.tec
        · simp only [if_pos hs]
          exact bump_pos acc.2 ((h :: t).getLastD h) v.tec h2 hs
        · simp only [if_neg hs]
          exact h2
